import Mathlib

/-!
Verification of the in-memory article repository of the tech-news-site
repository, shallowly embedded from `src/server/routes.ts` (the `MemStorage`
class and the route-level helpers `isArticleRelevant` and
`mapNewsAPIToSchema`).

Modelling decisions, all taken from the source:
* A JS `Map<string, NewsArticle>` iterates in insertion order; `set` on a new
  key appends, `set` on an existing key updates in place.  We model the map as
  an insertion-ordered `List Article`.
* `randomUUID()` produces a fresh identifier that never collides with a stored
  one; we model identifiers as naturals drawn from a `nextId` counter.
* JS `String.prototype.toLowerCase` is modelled character-wise by
  `Char.toLower`; `String.prototype.includes` is substring containment,
  modelled by `List.IsInfix` on the character data.
* `new Date(x).getTime()` timestamps are modelled directly as integer
  millisecond values in `publishedAt`.
* JS `Array.prototype.sort` is a stable sort (ECMAScript 2019); the comparator
  `(a, b) => timeB - timeA` sorts by `publishedAt` descending with ties kept in
  array (= insertion) order.  We model it by a stable insertion sort and prove
  the sortedness/stability facts rather than assuming them.
-/

namespace TechNews

/-- The closed category set from the shared schema (`newsCategories`),
including the wildcard tag. -/
inductive NewsCategory where
  | all
  | ai
  | musicTech
  | scienceTech
  | materials
  | embedded
  | bci
deriving DecidableEq

/-- The list of all category tags, as exported by the shared schema. -/
def newsCategories : List NewsCategory :=
  [.all, .ai, .musicTech, .scienceTech, .materials, .embedded, .bci]

/-- The `categoryKeywords` table from `routes.ts`, copied verbatim. -/
def categoryKeywords : NewsCategory → List String
  | .all => ["technology", "science", "research", "innovation"]
  | .ai => ["artificial", "intelligence", "machine", "learning", "neural",
            "algorithm", "model", "AI"]
  | .musicTech => ["music", "audio", "sound", "recording", "production",
                   "studio", "instrument", "acoustic"]
  | .scienceTech => ["science", "scientific", "research", "study",
                     "experiment", "discovery", "technology"]
  | .materials => ["material", "materials", "nanotechnology", "polymer",
                   "semiconductor", "crystal", "composite"]
  | .embedded => ["embedded", "FPGA", "ASIC", "microcontroller", "chip",
                  "processor", "hardware", "IoT"]
  | .bci => ["brain", "neural", "neuron", "interface", "implant",
             "prosthetic", "neurotechnology"]

/-- JS `toLowerCase`, character by character. -/
def jsToLower (s : String) : String := ⟨s.data.map Char.toLower⟩

/-- JS `s.includes(pat)`: `pat` occurs as a contiguous substring of `s`. -/
def jsIncludes (s pat : String) : Bool := decide (pat.data <:+: s.data)

/-- The `source` object stored on an article (`{ id, name }` in the schema;
the stored `name` is never null after mapping). -/
structure NewsSource where
  sourceId : Option String
  name : String
deriving DecidableEq

/-- A stored `NewsArticle` (schema fields; `description`/`urlToImage` are
nullable). -/
structure Article where
  id : Nat
  title : String
  description : Option String
  url : String
  urlToImage : Option String
  publishedAt : Int
  source : NewsSource
  category : NewsCategory
  views : Nat
deriving DecidableEq

/-- An `InsertNewsArticle`: everything but the repository-assigned `id` and
`views`. -/
structure InsertArticle where
  title : String
  description : Option String
  url : String
  urlToImage : Option String
  publishedAt : Int
  source : NewsSource
  category : NewsCategory
deriving DecidableEq

/-- The `source` object of a raw News-API record (either field may be
missing). -/
structure RawSource where
  id : Option String
  name : Option String
deriving DecidableEq

/-- A raw, untyped record as returned by the external news fetch; any text
field may be missing (`none`). -/
structure RawRecord where
  title : Option String
  description : Option String
  url : String
  urlToImage : Option String
  publishedAt : Int
  source : Option RawSource
deriving DecidableEq

/-- JS `x || d` for a nullable string `x` and non-empty default `d`:
`null` and `""` are falsy. -/
def jsOrElse (x : Option String) (d : String) : String :=
  match x with
  | some s => if s = "" then d else s
  | none => d

/-- JS `x || null` for a nullable string: the empty string collapses to
`null`. -/
def jsOrNull (x : Option String) : Option String :=
  match x with
  | some s => if s = "" then none else some s
  | none => none

/-- `isArticleRelevant` from `routes.ts` lines 56-66: wildcard is always
relevant; otherwise the lower-cased title and description, joined by a single
space, must contain at least one lower-cased keyword of the category. -/
def isArticleRelevant (article : RawRecord) (category : NewsCategory) : Bool :=
  if category = .all then true
  else
    let keywords := categoryKeywords category
    let title := jsToLower (article.title.getD "")
    let description := jsToLower (article.description.getD "")
    let content := title ++ " " ++ description
    keywords.any (fun keyword => jsIncludes content (jsToLower keyword))

/-- `mapNewsAPIToSchema` from `routes.ts` lines 414-427. -/
def mapNewsAPIToSchema (article : RawRecord) (category : NewsCategory) :
    InsertArticle :=
  { title := jsOrElse article.title "Untitled"
    description := jsOrNull article.description
    url := article.url
    urlToImage := jsOrNull article.urlToImage
    publishedAt := article.publishedAt
    source :=
      { sourceId := jsOrNull (article.source.bind RawSource.id)
        name := jsOrElse (article.source.bind RawSource.name) "Unknown Source" }
    category := category }

/-- The `MemStorage` state: the backing `Map` as an insertion-ordered list,
plus the fresh-identifier counter modelling `randomUUID`. -/
structure Store where
  articles : List Article
  nextId : Nat
deriving DecidableEq

/-- A freshly constructed `MemStorage`. -/
def emptyStore : Store := { articles := [], nextId := 0 }

/-- The category filter predicate (`article.category === category`). -/
def categoryMatches (category : NewsCategory) (a : Article) : Bool :=
  a.category == category

/-- The category filter applied by `getArticles`/`searchArticles`: no filter
when the wildcard is requested. -/
def filterCat (category : NewsCategory) (l : List Article) : List Article :=
  if category = .all then l else l.filter (categoryMatches category)

/-- One step of the stable insertion sort modelling the JS stable `sort` with
comparator `(a, b) => timeB - timeA`: the new element goes after every element
whose `publishedAt` is `≥` its own, so earlier-inserted equal-time articles
stay in front. -/
def insertDesc (a : Article) : List Article → List Article
  | [] => [a]
  | b :: l =>
      if a.publishedAt ≤ b.publishedAt then b :: insertDesc a l
      else a :: b :: l

/-- The stable descending-by-`publishedAt` sort used by `getArticles` and
`searchArticles`. -/
def sortByTime (l : List Article) : List Article :=
  l.foldl (fun acc a => insertDesc a acc) []

/-- `getArticles` from `routes.ts` lines 590-602: filter by category, stable
sort by publish date (newest first), then `slice(offset, offset + limit)`. -/
def getArticles (s : Store) (category : NewsCategory) (limit offset : Nat) :
    List Article :=
  ((sortByTime (filterCat category s.articles)).drop offset).take limit

/-- `getArticleById`: `this.articles.get(id)`. -/
def getArticleById (s : Store) (id : Nat) : Option Article :=
  s.articles.find? (fun a => a.id == id)

/-- `createArticle` from `routes.ts` lines 608-626: if any stored article has
the same title and url, return it and leave the store alone; otherwise assign
a fresh identifier, set `views = 0`, and append. -/
def createArticle (s : Store) (insertArticle : InsertArticle) :
    Article × Store :=
  match s.articles.find?
      (fun a => a.title == insertArticle.title && a.url == insertArticle.url) with
  | some existing => (existing, s)
  | none =>
      let article : Article :=
        { id := s.nextId
          title := insertArticle.title
          description := insertArticle.description
          url := insertArticle.url
          urlToImage := insertArticle.urlToImage
          publishedAt := insertArticle.publishedAt
          source := insertArticle.source
          category := insertArticle.category
          views := 0 }
      (article, { articles := s.articles ++ [article], nextId := s.nextId + 1 })

/-- `article.views += 1`. -/
def bumpViews (a : Article) : Article := { a with views := a.views + 1 }

/-- In-place update of the (first) entry with the given identifier, modelling
`Map.set` on an existing key, which keeps the entry's position. -/
def updateFirst (id : Nat) : List Article → List Article
  | [] => []
  | a :: l => if a.id == id then bumpViews a :: l else a :: updateFirst id l

/-- `updateArticleViews` from `routes.ts` lines 628-636: bump `views` of the
article with the given identifier and return it, or return `undefined`. -/
def updateArticleViews (s : Store) (id : Nat) : Option Article × Store :=
  match s.articles.find? (fun a => a.id == id) with
  | some a => (some (bumpViews a), { s with articles := updateFirst id s.articles })
  | none => (none, s)

/-- The per-article match test of `searchArticles` (the argument is the
already lower-cased search term).  The JS test on the nullable description is
`article.description && ...`, so an empty-string description is falsy and
short-circuits to no match. -/
def searchMatches (searchTerm : String) (a : Article) : Bool :=
  jsIncludes (jsToLower a.title) searchTerm ||
  (match a.description with
   | some d => if d = "" then false else jsIncludes (jsToLower d) searchTerm
   | none => false) ||
  jsIncludes (jsToLower a.source.name) searchTerm

/-- `searchArticles` from `routes.ts` lines 638-654: category filter, then the
field containment test against the lower-cased query, then the stable
newest-first sort, then `slice(offset, offset + limit)`. -/
def searchArticles (s : Store) (query : String) (category : NewsCategory)
    (limit offset : Nat) : List Article :=
  let searchTerm := jsToLower query
  ((sortByTime ((filterCat category s.articles).filter
      (searchMatches searchTerm))).drop offset).take limit

/-- `getTotalArticles` from `routes.ts` lines 656-661. -/
def getTotalArticles (s : Store) (category : NewsCategory) : Nat :=
  if category = .all then s.articles.length
  else (s.articles.filter (categoryMatches category)).length

/-- The fixed retention window of `clearOldArticles`: 3 days in
milliseconds. -/
def retentionWindowMs : Int := 3 * 86400000

/-- `clearOldArticles` from `routes.ts` lines 663-672: delete every article
whose `publishedAt` is strictly older than `now` minus the retention
window. -/
def clearOldArticles (s : Store) (now : Int) : Store :=
  { s with articles :=
      s.articles.filter (fun a => !(decide (a.publishedAt < now - retentionWindowMs))) }

/-- The dedup key string built by `removeDuplicates`. -/
def dedupKeyStr (a : Article) : String := a.title ++ "||" ++ a.url

/-- The scan of `removeDuplicates`: keep the first article seen for each key,
drop later ones. -/
def dedupScan (seen : List String) : List Article → List Article
  | [] => []
  | a :: l =>
      if seen.contains (dedupKeyStr a) then dedupScan seen l
      else a :: dedupScan (dedupKeyStr a :: seen) l

/-- `removeDuplicates` from `routes.ts` lines 674-688. -/
def removeDuplicates (s : Store) : Store :=
  { s with articles := dedupScan [] s.articles }

/-- `k` successive `updateArticleViews` calls for the same identifier. -/
def viewsIter (id : Nat) : Nat → Store → Store
  | 0, s => s
  | k + 1, s => viewsIter id k (updateArticleViews s id).2

/-- Folding a whole list of inserts through `createArticle`, starting from a
fresh store: an arbitrary sequence of create calls. -/
def createMany (inserts : List InsertArticle) : Store :=
  inserts.foldl (fun s i => (createArticle s i).2) emptyStore

/-- At most one stored article per distinct `(title, url)` pair. -/
def KeyUnique (l : List Article) : Prop :=
  l.Pairwise (fun a b => ¬(a.title = b.title ∧ a.url = b.url))

/-- The descending-recency order relation used by the sort. -/
def timeGe (a b : Article) : Prop := b.publishedAt ≤ a.publishedAt

/-- The search-match predicate exactly as the specification words it: the
query matches an article when the title, the description (when present), or
the source name contains it as a case-insensitive substring.  This is the
spec-side counterpart of `searchMatches`, written from the spec sentence, to
be compared with the source-side definition. -/
def searchMatchesSpec (query : String) (a : Article) : Bool :=
  jsIncludes (jsToLower a.title) (jsToLower query) ||
  (match a.description with
   | some d => jsIncludes (jsToLower d) (jsToLower query)
   | none => false) ||
  jsIncludes (jsToLower a.source.name) (jsToLower query)

/-- The pagination loop of the spec: request `getArticles` pages of size `N`
at offsets `offset, offset + N, …` and concatenate them until an empty page
comes back.  `fuel` bounds the recursion; `allPages` supplies enough of it. -/
def pagesFrom (s : Store) (category : NewsCategory) (N : Nat) :
    Nat → Nat → List Article
  | _, 0 => []
  | offset, fuel + 1 =>
      let page := getArticles s category N offset
      if page = [] then [] else page ++ pagesFrom s category N (offset + N) fuel

/-- All pages of size `N`, concatenated until the first empty page. -/
def allPages (s : Store) (category : NewsCategory) (N : Nat) : List Article :=
  pagesFrom s category N 0 (getTotalArticles s category + 1)

/-- Store states reachable through the route layer (`registerRoutes`): the
GET list route ingests fetched or sample records mapped with the requested
category (any member of the closed set, the wildcard included, since the
request category defaults to the wildcard and is only validated against
`newsCategories`), the article route bumps views, and the refresh route runs
eviction, re-ingestion and duplicate compaction. -/
inductive Reachable : Store → Prop where
  | empty : Reachable emptyStore
  | ingest {s : Store} (h : Reachable s) (category : NewsCategory)
      (record : RawRecord) :
      Reachable (createArticle s (mapNewsAPIToSchema record category)).2
  | views {s : Store} (h : Reachable s) (id : Nat) :
      Reachable (updateArticleViews s id).2
  | evict {s : Store} (h : Reachable s) (now : Int) :
      Reachable (clearOldArticles s now)
  | compact {s : Store} (h : Reachable s) : Reachable (removeDuplicates s)

/-- Store states reachable when every ingestion uses a non-wildcard category,
as the refresh-all route does (it skips the wildcard in its loop). -/
inductive ReachableNW : Store → Prop where
  | empty : ReachableNW emptyStore
  | ingest {s : Store} (h : ReachableNW s) (category : NewsCategory)
      (record : RawRecord) (hcat : category ≠ NewsCategory.all) :
      ReachableNW (createArticle s (mapNewsAPIToSchema record category)).2
  | views {s : Store} (h : ReachableNW s) (id : Nat) :
      ReachableNW (updateArticleViews s id).2
  | evict {s : Store} (h : ReachableNW s) (now : Int) :
      ReachableNW (clearOldArticles s now)
  | compact {s : Store} (h : ReachableNW s) : ReachableNW (removeDuplicates s)

/-- Concrete raw record on which the literal no-space concatenation of title
and description differs from the space-joined text built by the code. -/
def recBoundary : RawRecord :=
  { title := some "mu", description := some "sic", url := "u",
    urlToImage := none, publishedAt := 0, source := none }

/-- Concrete raw record used for reachability witnesses. -/
def recSample : RawRecord :=
  { title := some "Tech sample", description := some "Sample description",
    url := "https://example.com/sample", urlToImage := none,
    publishedAt := 100, source := none }

/-- A reachable store holding one article ingested under the wildcard
category, as the GET list route does on a default request. -/
def wildcardStore : Store :=
  (createArticle emptyStore (mapNewsAPIToSchema recSample NewsCategory.all)).2

/-- A store reachable through non-wildcard ingestion only. -/
def nwStore : Store :=
  (createArticle emptyStore (mapNewsAPIToSchema recSample NewsCategory.ai)).2

/-- Concrete source object for witness stores. -/
def srcW : NewsSource := { sourceId := some "techcrunch", name := "TechCrunch" }

/-- Concrete stored article used by the view-counter witnesses. -/
def artAi : Article :=
  { id := 7, title := "Neural networks advance",
    description := some "New machine learning results",
    url := "https://example.com/ai1", urlToImage := none, publishedAt := 500,
    source := srcW, category := .ai, views := 3 }

/-- Concrete one-article store used by the view-counter witnesses. -/
def storeW : Store := { articles := [artAi], nextId := 8 }

/-- Insert record colliding with `artAi` on the `(title, url)` key. -/
def insDup : InsertArticle :=
  { title := "Neural networks advance", description := none,
    url := "https://example.com/ai1", urlToImage := some "x",
    publishedAt := 999, source := srcW, category := .ai }

/-- Reference time for the eviction witness. -/
def wNow : Int := 1000000000000

/-- Article published four days before `wNow`: older than the cutoff. -/
def artOld : Article :=
  { id := 0, title := "Old story", description := none,
    url := "https://example.com/old", urlToImage := none,
    publishedAt := wNow - 4 * 86400000, source := srcW, category := .ai,
    views := 0 }

/-- Article published one day before `wNow`: newer than the cutoff. -/
def artNew : Article :=
  { id := 1, title := "Fresh story", description := none,
    url := "https://example.com/fresh", urlToImage := none,
    publishedAt := wNow - 86400000, source := srcW, category := .bci,
    views := 0 }

/-- Two-article store used by the eviction and pagination witnesses. -/
def storeEvict : Store := { articles := [artOld, artNew], nextId := 2 }

/-- The articles of `l` carrying the exact publish time `t`, in order: used to
state stability of the sort. -/
def timeFilter (t : Int) (l : List Article) : List Article :=
  l.filter (fun a => a.publishedAt == t)


theorem insertDesc_perm (a : Article) (l : List Article) :
    List.Perm (insertDesc a l) (a :: l) := by
  induction l with
  | nil => exact List.Perm.refl _
  | cons b l ih =>
      unfold insertDesc
      split
      · exact (ih.cons b).trans (List.Perm.swap a b l)
      · exact List.Perm.refl _

theorem insertDesc_pairwise (a : Article) (l : List Article)
    (h : l.Pairwise timeGe) : (insertDesc a l).Pairwise timeGe := by
  induction l with
  | nil => simp [insertDesc, timeGe]
  | cons b l ih =>
      rw [List.pairwise_cons] at h
      obtain ⟨hb, hl⟩ := h
      unfold insertDesc
      split
      · next hab =>
          rw [List.pairwise_cons]
          refine ⟨?_, ih hl⟩
          intro x hx
          have hx' : x ∈ a :: l := (insertDesc_perm a l).mem_iff.mp hx
          rcases List.mem_cons.mp hx' with hxa | hxl
          · subst hxa; exact hab
          · exact hb x hxl
      · next hab =>
          rw [List.pairwise_cons]
          refine ⟨?_, ?_⟩
          · intro x hx
            rcases List.mem_cons.mp hx with hxb | hxl
            · subst hxb
              exact le_of_lt (lt_of_not_le hab)
            · exact le_trans (hb x hxl) (le_of_lt (lt_of_not_le hab))
          · rw [List.pairwise_cons]
            exact ⟨hb, hl⟩

theorem insertDesc_timeFilter (a : Article) (l : List Article) (t : Int)
    (h : l.Pairwise timeGe) :
    timeFilter t (insertDesc a l) =
      if a.publishedAt == t then timeFilter t l ++ [a] else timeFilter t l := by
  induction l with
  | nil =>
      unfold insertDesc timeFilter
      cases hat : (a.publishedAt == t) <;> simp [List.filter_cons, hat]
  | cons b l ih =>
      rw [List.pairwise_cons] at h
      obtain ⟨hb, hl⟩ := h
      unfold insertDesc
      split
      · next hab =>
          have ihl := ih hl
          unfold timeFilter at ihl ⊢
          cases hat : (a.publishedAt == t) <;>
            cases hbt : (b.publishedAt == t) <;>
              simp only [hat, hbt, if_pos, if_neg, Bool.false_eq_true,
                List.filter_cons] at ihl ⊢ <;>
            simp [ihl]
      · next hab =>
          have hba : b.publishedAt < a.publishedAt := lt_of_not_le hab
          cases hat : (a.publishedAt == t)
          · have haf : timeFilter t (a :: b :: l) = timeFilter t (b :: l) := by
              unfold timeFilter
              simp [List.filter_cons, hat]
            simp [haf, hat]
          · have hatP : a.publishedAt = t := by
              exact beq_iff_eq.mp hat
            have hnil : timeFilter t (b :: l) = [] := by
              unfold timeFilter
              rw [List.filter_eq_nil_iff]
              intro x hx
              have hxle : x.publishedAt ≤ b.publishedAt := by
                rcases List.mem_cons.mp hx with hxb | hxl
                · subst hxb; exact le_refl _
                · exact hb x hxl
              have hxt : x.publishedAt < t := hatP ▸ lt_of_le_of_lt hxle hba
              simp only [beq_iff_eq]
              exact ne_of_lt hxt
            have hcons : timeFilter t (a :: b :: l) = [a] := by
              unfold timeFilter at hnil ⊢
              simp [List.filter_cons, hat, hnil]
            simp [hcons, hat, hnil]

theorem sortAux_spec (l : List Article) :
    ∀ acc : List Article, acc.Pairwise timeGe →
      (l.foldl (fun acc a => insertDesc a acc) acc).Pairwise timeGe ∧
      List.Perm (l.foldl (fun acc a => insertDesc a acc) acc) (acc ++ l) ∧
      ∀ t : Int, timeFilter t (l.foldl (fun acc a => insertDesc a acc) acc) =
        timeFilter t acc ++ timeFilter t l := by
  induction l with
  | nil =>
      intro acc hacc
      refine ⟨hacc, by simp, ?_⟩
      intro t
      simp [timeFilter]
  | cons a l ih =>
      intro acc hacc
      have hins : (insertDesc a acc).Pairwise timeGe :=
        insertDesc_pairwise a acc hacc
      obtain ⟨p1, p2, p3⟩ := ih (insertDesc a acc) hins
      refine ⟨p1, ?_, ?_⟩
      · have h1 : List.Perm (insertDesc a acc ++ l) ((a :: acc) ++ l) :=
          (insertDesc_perm a acc).append_right l
        have h2 : List.Perm (acc ++ a :: l) (a :: (acc ++ l)) :=
          List.perm_middle
        exact (p2.trans h1).trans h2.symm
      · intro t
        have hstep := insertDesc_timeFilter a acc t hacc
        rw [List.foldl_cons] at *
        rw [p3 t, hstep]
        cases hat : (a.publishedAt == t) <;>
          simp [timeFilter, List.filter_cons, hat]

theorem sortByTime_perm (l : List Article) : List.Perm (sortByTime l) l := by
  have h := (sortAux_spec l [] (List.Pairwise.nil)).2.1
  simpa [sortByTime] using h

theorem sortByTime_pairwise (l : List Article) :
    (sortByTime l).Pairwise timeGe :=
  (sortAux_spec l [] (List.Pairwise.nil)).1

theorem sortByTime_timeFilter (l : List Article) (t : Int) :
    timeFilter t (sortByTime l) = timeFilter t l := by
  have h := (sortAux_spec l [] (List.Pairwise.nil)).2.2 t
  simpa [sortByTime, timeFilter] using h


theorem jsIncludes_pat_empty (s : String) : jsIncludes s "" = true := by
  unfold jsIncludes
  rw [decide_eq_true_eq]
  exact ⟨[], s.data, by simp⟩

theorem jsToLower_data (s : String) : (jsToLower s).data = s.data.map Char.toLower := rfl

theorem str_of_data_nil (s : String) (h : s.data = []) : s = "" := by
  cases s with
  | mk data =>
      simp only at h
      subst h
      rfl

theorem jsIncludes_empty_left (pat : String) (h : pat.data ≠ []) :
    jsIncludes "" pat = false := by
  unfold jsIncludes
  rw [decide_eq_false_iff_not]
  rintro ⟨u, v, huv⟩
  have : u ++ (pat.data ++ v) = [] := by simpa using huv
  rcases List.append_eq_nil.mp this with ⟨_, h2⟩
  rcases List.append_eq_nil.mp h2 with ⟨h3, _⟩
  exact h h3

theorem searchMatches_lower_empty (a : Article) :
    searchMatches (jsToLower "") a = true := by
  have h : jsToLower "" = "" := rfl
  rw [h]
  unfold searchMatches
  rw [jsIncludes_pat_empty]
  simp

theorem searchMatches_eq_spec (q : String) (a : Article) :
    searchMatches (jsToLower q) a = searchMatchesSpec q a := by
  unfold searchMatches searchMatchesSpec
  cases hd : a.description with
  | none => rfl
  | some d =>
      by_cases hdq : d = ""
      · subst hdq
        have h0 : jsToLower "" = "" := rfl
        by_cases hq : q = ""
        · subst hq
          simp [h0, jsIncludes_pat_empty]
        · have hqd : q.data ≠ [] := fun hn => hq (str_of_data_nil q hn)
          have hmap : (jsToLower q).data ≠ [] := by
            rw [jsToLower_data]
            simp [hqd]
          simp [h0, jsIncludes_empty_left _ hmap]
      · simp [hdq]

/-- C10: with the empty string as query, search degenerates to listing: the
empty string is contained in every title, so the search filter passes every
category-matching article and the two operations agree exactly. -/
theorem searchArticles_empty_query (s : Store) (category : NewsCategory)
    (limit offset : Nat) :
    searchArticles s "" category limit offset =
      getArticles s category limit offset := by
  have h : (filterCat category s.articles).filter (searchMatches (jsToLower "")) =
      filterCat category s.articles := by
    rw [List.filter_eq_self]
    intro a _
    exact searchMatches_lower_empty a
  show ((sortByTime ((filterCat category s.articles).filter
      (searchMatches (jsToLower "")))).drop offset).take limit = _
  rw [h]
  rfl

/-- C3: `getArticles` returns exactly the category-matching stored articles
(no filter for the wildcard), ordered by `publishedAt` descending with ties
in insertion order (the per-timestamp subsequences of the sorted list are
those of the store, in store order), restricted to the slice
`[offset, offset + limit)` and truncated when the filtered set is shorter. -/
theorem getArticles_spec (s : Store) (category : NewsCategory)
    (limit offset : Nat) :
    ∃ L : List Article,
      List.Perm L (filterCat category s.articles) ∧
      L.Pairwise timeGe ∧
      (∀ t : Int, timeFilter t L = timeFilter t (filterCat category s.articles)) ∧
      filterCat NewsCategory.all s.articles = s.articles ∧
      getArticles s category limit offset = (L.drop offset).take limit :=
  ⟨sortByTime (filterCat category s.articles), sortByTime_perm _,
    sortByTime_pairwise _, fun t => sortByTime_timeFilter _ t, rfl, rfl⟩

/-- C4: `searchArticles` returns exactly the category-matching stored
articles matched by the spec-side field-containment predicate, in the same
stable newest-first order, restricted to the requested page. -/
theorem searchArticles_spec (s : Store) (q : String) (category : NewsCategory)
    (limit offset : Nat) :
    ∃ L : List Article,
      List.Perm L ((filterCat category s.articles).filter (searchMatchesSpec q)) ∧
      L.Pairwise timeGe ∧
      (∀ t : Int, timeFilter t L =
        timeFilter t ((filterCat category s.articles).filter (searchMatchesSpec q))) ∧
      searchArticles s q category limit offset = (L.drop offset).take limit := by
  have hfun : searchMatches (jsToLower q) = searchMatchesSpec q :=
    funext (fun a => searchMatches_eq_spec q a)
  refine ⟨sortByTime ((filterCat category s.articles).filter (searchMatchesSpec q)),
    sortByTime_perm _, sortByTime_pairwise _, fun t => sortByTime_timeFilter _ t, ?_⟩
  show ((sortByTime ((filterCat category s.articles).filter
      (searchMatches (jsToLower q)))).drop offset).take limit = _
  rw [hfun]

/-- C2 (amended): `isArticleRelevant` is true for the wildcard, and otherwise
true exactly when the case-folded text built from the title, a single space,
and the description contains some keyword of the category (case-folded) as a
substring. -/
theorem isArticleRelevant_spec (record : RawRecord) (category : NewsCategory) :
    isArticleRelevant record category = true ↔
      (category = NewsCategory.all ∨
        ∃ kw ∈ categoryKeywords category,
          (jsToLower kw).data <:+:
            (jsToLower (record.title.getD "") ++ " " ++
              jsToLower (record.description.getD "")).data) := by
  unfold isArticleRelevant
  by_cases hc : category = NewsCategory.all
  · simp [hc]
  · simp [hc, List.any_eq_true, jsIncludes]

/-- C2 (counterexample): on the record with title `"mu"` and description
`"sic"`, the literal no-space concatenation contains the `music-tech` keyword
`"music"`, yet `isArticleRelevant` answers false, because the code joins
title and description with a space; so the claim, read with the literal
concatenation, fails at this input. -/
theorem isArticleRelevant_counterexample :
    isArticleRelevant recBoundary NewsCategory.musicTech = false ∧
    "music" ∈ categoryKeywords NewsCategory.musicTech ∧
    (jsToLower "music").data <:+:
      (jsToLower ((recBoundary.title.getD "") ++ (recBoundary.description.getD ""))).data ∧
    ¬(isArticleRelevant recBoundary NewsCategory.musicTech = true ↔
        (NewsCategory.musicTech = NewsCategory.all ∨
          ∃ kw ∈ categoryKeywords NewsCategory.musicTech,
            (jsToLower kw).data <:+:
              (jsToLower ((recBoundary.title.getD "") ++
                (recBoundary.description.getD ""))).data)) := by
  decide


theorem createArticle_keyUnique (s : Store) (ins : InsertArticle)
    (h : KeyUnique s.articles) : KeyUnique ((createArticle s ins).2.articles) := by
  unfold createArticle
  cases hf : s.articles.find?
      (fun a => a.title == ins.title && a.url == ins.url) with
  | some existing => exact h
  | none =>
      simp only
      rw [KeyUnique, List.pairwise_append]
      refine ⟨h, by simp, ?_⟩
      intro a ha b hb
      have hna := List.find?_eq_none.mp hf a ha
      simp only [Bool.and_eq_true, beq_iff_eq] at hna
      have hb' : b.title = ins.title ∧ b.url = ins.url := by
        rcases List.mem_singleton.mp hb with rfl
        exact ⟨rfl, rfl⟩
      rintro ⟨h1, h2⟩
      exact hna ⟨h1.trans hb'.1, h2.trans hb'.2⟩

theorem createMany_aux (inserts : List InsertArticle) :
    ∀ s : Store, KeyUnique s.articles →
      KeyUnique ((inserts.foldl (fun s i => (createArticle s i).2) s).articles) := by
  induction inserts with
  | nil => intro s h; exact h
  | cons i inserts ih =>
      intro s h
      exact ih _ (createArticle_keyUnique s i h)

theorem find?_of_keyUnique (ins : InsertArticle) :
    ∀ (l : List Article) (a : Article),
      l.Pairwise (fun a b => ¬(a.title = b.title ∧ a.url = b.url)) →
      a ∈ l → a.title = ins.title → a.url = ins.url →
      l.find? (fun x => x.title == ins.title && x.url == ins.url) = some a := by
  intro l
  induction l with
  | nil => intro a _ ha; simp at ha
  | cons b l ih =>
      intro a hp ha ht hu
      rw [List.pairwise_cons] at hp
      obtain ⟨hb, hl⟩ := hp
      by_cases hpb : (b.title == ins.title && b.url == ins.url) = true
      · simp only [List.find?_cons, hpb]
        rcases List.mem_cons.mp ha with rfl | ha'
        · rfl
        · exfalso
          simp only [Bool.and_eq_true, beq_iff_eq] at hpb
          exact hb a ha' ⟨hpb.1.trans ht.symm, hpb.2.trans hu.symm⟩
      · have hpb' : (b.title == ins.title && b.url == ins.url) = false :=
          Bool.eq_false_iff.mpr hpb
        simp only [List.find?_cons, hpb']
        rcases List.mem_cons.mp ha with rfl | ha'
        · exfalso
          apply hpb
          simp [ht, hu]
        · exact ih a hl ha' ht hu

/-- C1: every sequence of `createArticle` calls from a fresh store keeps at
most one stored article per `(title, url)` key, and a call whose key equals
that of an already-stored article (in a key-unique store) returns that very
article (identifier and views included) and leaves the store untouched. -/
theorem createArticle_dedup :
    (∀ inserts : List InsertArticle, KeyUnique (createMany inserts).articles) ∧
    (∀ (s : Store) (ins : InsertArticle) (a : Article),
      s.articles.find? (fun x => x.title == ins.title && x.url == ins.url) = some a →
      createArticle s ins = (a, s)) ∧
    (∀ (s : Store) (ins : InsertArticle) (a : Article),
      KeyUnique s.articles → a ∈ s.articles →
      a.title = ins.title → a.url = ins.url →
      createArticle s ins = (a, s)) := by
  refine ⟨?_, ?_, ?_⟩
  · intro inserts
    exact createMany_aux inserts emptyStore List.Pairwise.nil
  · intro s ins a h
    unfold createArticle
    rw [h]
  · intro s ins a hk ha ht hu
    unfold createArticle
    rw [find?_of_keyUnique ins s.articles a hk ha ht hu]

/-- C1 witness: a colliding insert against a concrete one-article store
returns the stored article unchanged and leaves the store as it was. -/
theorem createArticle_dedup_witness :
    createArticle storeW insDup = (artAi, storeW) :=
  createArticle_dedup.2.2 storeW insDup artAi
    (by simp [KeyUnique, storeW]) (by simp [storeW]) rfl rfl

theorem find?_updateFirst (id : Nat) :
    ∀ (l : List Article) (a : Article),
      l.find? (fun x => x.id == id) = some a →
      (updateFirst id l).find? (fun x => x.id == id) = some (bumpViews a) := by
  intro l
  induction l with
  | nil => intro a h; simp at h
  | cons b l ih =>
      intro a h
      cases hb : (b.id == id) with
      | true =>
          simp only [List.find?_cons, hb] at h
          obtain rfl : b = a := by injection h
          unfold updateFirst
          rw [if_pos hb]
          have hba : ((bumpViews b).id == id) = true := hb
          simp only [List.find?_cons, hba]
      | false =>
          simp only [List.find?_cons, hb] at h
          unfold updateFirst
          rw [if_neg (by simp [hb])]
          simp only [List.find?_cons, hb]
          exact ih a h

theorem viewsIter_find (id : Nat) :
    ∀ (k : Nat) (s : Store) (a : Article),
      getArticleById s id = some a →
      getArticleById (viewsIter id k s) id = some { a with views := a.views + k } := by
  intro k
  induction k with
  | zero =>
      intro s a h
      have : ({ a with views := a.views + 0 } : Article) = a := by
        cases a
        rfl
      rw [viewsIter, this]
      exact h
  | succ k ih =>
      intro s a h
      unfold getArticleById at h
      have hstep : (updateArticleViews s id).2.articles = updateFirst id s.articles := by
        unfold updateArticleViews
        rw [h]
      have hfind : getArticleById (updateArticleViews s id).2 id = some (bumpViews a) := by
        unfold getArticleById
        rw [hstep]
        exact find?_updateFirst id s.articles a h
      have := ih (updateArticleViews s id).2 (bumpViews a) hfind
      rw [viewsIter]
      rw [this]
      have : ({ bumpViews a with views := (bumpViews a).views + k } : Article) =
          { a with views := a.views + (k + 1) } := by
        cases a
        simp [bumpViews]
        omega
      rw [this]

/-- C5: when an article with the identifier is stored, `updateArticleViews`
returns it with `views` bumped by one, and `k` successive calls leave its
views exactly `k` above the prior value; when none is stored, the call
signals not-found by returning `none`. -/
theorem updateArticleViews_spec (s : Store) (id : Nat) :
    (∀ a : Article, getArticleById s id = some a →
      (updateArticleViews s id).1 = some (bumpViews a) ∧
      ∀ k : Nat, getArticleById (viewsIter id k s) id =
        some { a with views := a.views + k }) ∧
    (getArticleById s id = none → updateArticleViews s id = (none, s)) := by
  constructor
  · intro a h
    constructor
    · unfold updateArticleViews
      unfold getArticleById at h
      rw [h]
    · intro k
      exact viewsIter_find id k s a h
  · intro h
    unfold updateArticleViews
    unfold getArticleById at h
    rw [h]

/-- C5 witness: on the concrete one-article store, the call returns the
article with views bumped, and two successive calls add exactly two. -/
theorem updateArticleViews_spec_witness :
    (updateArticleViews storeW 7).1 = some (bumpViews artAi) ∧
    getArticleById (viewsIter 7 2 storeW) 7 =
      some { artAi with views := artAi.views + 2 } :=
  ⟨((updateArticleViews_spec storeW 7).1 artAi (by decide)).1,
    ((updateArticleViews_spec storeW 7).1 artAi (by decide)).2 2⟩

theorem updateFirst_decomp (id : Nat) :
    ∀ (l : List Article) (a : Article),
      l.find? (fun x => x.id == id) = some a →
      ∃ pre post, l = pre ++ a :: post ∧
        updateFirst id l = pre ++ bumpViews a :: post ∧
        ∀ x ∈ pre, (x.id == id) = false := by
  intro l
  induction l with
  | nil => intro a h; simp at h
  | cons b l ih =>
      intro a h
      cases hb : (b.id == id) with
      | true =>
          simp only [List.find?_cons, hb] at h
          obtain rfl : b = a := by injection h
          refine ⟨[], l, by simp, ?_, by simp⟩
          unfold updateFirst
          rw [if_pos hb]
          simp
      | false =>
          simp only [List.find?_cons, hb] at h
          obtain ⟨pre, post, h1, h2, h3⟩ := ih a h
          refine ⟨b :: pre, post, by simp [h1], ?_, ?_⟩
          · unfold updateFirst
            rw [if_neg (by simp [hb])]
            simp [h2]
          · intro x hx
            rcases List.mem_cons.mp hx with rfl | hx'
            · exact hb
            · exact h3 x hx'

/-- C9: `updateArticleViews` is frame-preserving: on a hit it rewrites only
the found entry, in place, to the same article with `views + 1` (all other
fields equal), leaves every other stored article and the id counter alone;
on a miss it returns the store unchanged. -/
theorem updateArticleViews_frame (s : Store) (id : Nat) :
    (getArticleById s id = none → updateArticleViews s id = (none, s)) ∧
    (∀ a : Article, getArticleById s id = some a →
      ∃ pre post,
        s.articles = pre ++ a :: post ∧
        (updateArticleViews s id).2.articles = pre ++ bumpViews a :: post ∧
        (updateArticleViews s id).2.nextId = s.nextId ∧
        (bumpViews a).id = a.id ∧ (bumpViews a).title = a.title ∧
        (bumpViews a).description = a.description ∧ (bumpViews a).url = a.url ∧
        (bumpViews a).urlToImage = a.urlToImage ∧
        (bumpViews a).publishedAt = a.publishedAt ∧
        (bumpViews a).source = a.source ∧ (bumpViews a).category = a.category ∧
        (bumpViews a).views = a.views + 1) := by
  constructor
  · intro h
    unfold updateArticleViews
    unfold getArticleById at h
    rw [h]
  · intro a h
    unfold getArticleById at h
    obtain ⟨pre, post, h1, h2, _⟩ := updateFirst_decomp id s.articles a h
    refine ⟨pre, post, h1, ?_, ?_, rfl, rfl, rfl, rfl, rfl, rfl, rfl, rfl, rfl⟩
    · unfold updateArticleViews
      rw [h]
      simpa using h2
    · unfold updateArticleViews
      rw [h]

/-- C9 witness: the frame property instantiated on the concrete one-article
store. -/
theorem updateArticleViews_frame_witness :
    ∃ pre post,
      storeW.articles = pre ++ artAi :: post ∧
      (updateArticleViews storeW 7).2.articles = pre ++ bumpViews artAi :: post ∧
      (updateArticleViews storeW 7).2.nextId = storeW.nextId ∧
      (bumpViews artAi).id = artAi.id ∧ (bumpViews artAi).title = artAi.title ∧
      (bumpViews artAi).description = artAi.description ∧
      (bumpViews artAi).url = artAi.url ∧
      (bumpViews artAi).urlToImage = artAi.urlToImage ∧
      (bumpViews artAi).publishedAt = artAi.publishedAt ∧
      (bumpViews artAi).source = artAi.source ∧
      (bumpViews artAi).category = artAi.category ∧
      (bumpViews artAi).views = artAi.views + 1 :=
  (updateArticleViews_frame storeW 7).2 artAi (by decide)

/-- C6: after `clearOldArticles` runs at time `now`, no stored article is
strictly older than `now` minus the three-day retention window, and every
article at least as new as the cutoff that was stored before the call is
still stored, unmodified. -/
theorem clearOldArticles_spec (s : Store) (now : Int) :
    (∀ a ∈ (clearOldArticles s now).articles,
      ¬(a.publishedAt < now - retentionWindowMs)) ∧
    (∀ a ∈ s.articles, ¬(a.publishedAt < now - retentionWindowMs) →
      a ∈ (clearOldArticles s now).articles) := by
  constructor
  · intro a ha
    unfold clearOldArticles at ha
    simp only [List.mem_filter, Bool.not_eq_true', decide_eq_false_iff_not] at ha
    exact ha.2
  · intro a ha h
    unfold clearOldArticles
    simp only [List.mem_filter, Bool.not_eq_true', decide_eq_false_iff_not]
    exact ⟨ha, h⟩

/-- C6 witness: with one four-day-old and one one-day-old article, the
one-day-old article survives eviction. -/
theorem clearOldArticles_spec_witness :
    artNew ∈ (clearOldArticles storeEvict wNow).articles :=
  (clearOldArticles_spec storeEvict wNow).2 artNew (by decide) (by decide)


theorem getTotalArticles_eq_length (s : Store) (category : NewsCategory) :
    getTotalArticles s category = (filterCat category s.articles).length := by
  unfold getTotalArticles filterCat
  by_cases hc : category = NewsCategory.all <;> simp [hc]

theorem pagesFrom_eq_drop (s : Store) (category : NewsCategory) (N : Nat)
    (hN : 0 < N) :
    ∀ (fuel offset : Nat),
      (sortByTime (filterCat category s.articles)).length ≤ offset + fuel * N →
      pagesFrom s category N offset fuel =
        (sortByTime (filterCat category s.articles)).drop offset := by
  intro fuel
  induction fuel with
  | zero =>
      intro offset h
      rw [pagesFrom]
      rw [Nat.zero_mul, Nat.add_zero] at h
      exact (List.drop_eq_nil_of_le h).symm
  | succ fuel ih =>
      intro offset h
      rw [pagesFrom]
      by_cases hpage : getArticles s category N offset = []
      · rw [if_pos hpage]
        unfold getArticles at hpage
        rcases List.take_eq_nil_iff.mp hpage with hN0 | hdrop
        · omega
        · exact hdrop.symm
      · rw [if_neg hpage]
        have hlen : (sortByTime (filterCat category s.articles)).length ≤
            (offset + N) + fuel * N := by
          have : offset + (fuel + 1) * N = offset + N + fuel * N := by ring
          omega
        rw [ih (offset + N) hlen]
        unfold getArticles
        have hdd : (sortByTime (filterCat category s.articles)).drop (offset + N) =
            ((sortByTime (filterCat category s.articles)).drop offset).drop N :=
          (List.drop_drop N offset _).symm
        rw [hdd]
        exact List.take_append_drop N _

/-- C7: for a fixed store and page size `N > 0`, concatenating the
`getArticles` pages at offsets `0, N, 2N, …` until an empty page comes back
yields, as a set, exactly the articles of the single page of size
`getTotalArticles` at offset `0`. -/
theorem pagination_complete (s : Store) (category : NewsCategory) (N : Nat)
    (hN : 0 < N) :
    ∀ a : Article, a ∈ allPages s category N ↔
      a ∈ getArticles s category (getTotalArticles s category) 0 := by
  have htot : getTotalArticles s category =
      (sortByTime (filterCat category s.articles)).length := by
    rw [getTotalArticles_eq_length]
    exact ((sortByTime_perm (filterCat category s.articles)).length_eq).symm
  have hall : allPages s category N = sortByTime (filterCat category s.articles) := by
    have hlen2 : (sortByTime (filterCat category s.articles)).length ≤
        0 + (getTotalArticles s category + 1) * N := by
      rw [htot]
      calc (sortByTime (filterCat category s.articles)).length
          ≤ (sortByTime (filterCat category s.articles)).length + 1 := Nat.le_succ _
        _ = ((sortByTime (filterCat category s.articles)).length + 1) * 1 :=
            (Nat.mul_one _).symm
        _ ≤ ((sortByTime (filterCat category s.articles)).length + 1) * N :=
            Nat.mul_le_mul_left _ hN
        _ = 0 + ((sortByTime (filterCat category s.articles)).length + 1) * N :=
            (Nat.zero_add _).symm
    unfold allPages
    rw [pagesFrom_eq_drop s category N hN (getTotalArticles s category + 1) 0 hlen2]
    simp
  have hone : getArticles s category (getTotalArticles s category) 0 =
      sortByTime (filterCat category s.articles) := by
    unfold getArticles
    rw [List.drop_zero, htot]
    exact List.take_length _
  rw [hall, hone]
  intro a
  exact Iff.rfl

/-- C7 witness: page size 1 against the concrete two-article store. -/
theorem pagination_complete_witness :
    artNew ∈ allPages storeEvict NewsCategory.bci 1 ↔
      artNew ∈ getArticles storeEvict NewsCategory.bci
        (getTotalArticles storeEvict NewsCategory.bci) 0 :=
  pagination_complete storeEvict NewsCategory.bci 1 (by decide) artNew


theorem mem_createArticle (s : Store) (ins : InsertArticle) (a : Article)
    (h : a ∈ (createArticle s ins).2.articles) :
    a ∈ s.articles ∨ a.category = ins.category := by
  unfold createArticle at h
  cases hf : s.articles.find?
      (fun x => x.title == ins.title && x.url == ins.url) with
  | some existing =>
      rw [hf] at h
      exact Or.inl h
  | none =>
      rw [hf] at h
      simp only at h
      rcases List.mem_append.mp h with h1 | h2
      · exact Or.inl h1
      · rcases List.mem_singleton.mp h2 with rfl
        exact Or.inr rfl

theorem mem_updateFirst (id : Nat) :
    ∀ (l : List Article) (a : Article), a ∈ updateFirst id l →
      ∃ b ∈ l, a.category = b.category := by
  intro l
  induction l with
  | nil => intro a h; simp [updateFirst] at h
  | cons b l ih =>
      intro a h
      unfold updateFirst at h
      by_cases hb : (b.id == id) = true
      · rw [if_pos hb] at h
        rcases List.mem_cons.mp h with rfl | h2
        · exact ⟨b, List.mem_cons_self _ _, rfl⟩
        · exact ⟨a, List.mem_cons_of_mem _ h2, rfl⟩
      · rw [if_neg hb] at h
        rcases List.mem_cons.mp h with rfl | h2
        · exact ⟨a, List.mem_cons_self _ _, rfl⟩
        · obtain ⟨c, hc, hcat⟩ := ih a h2
          exact ⟨c, List.mem_cons_of_mem _ hc, hcat⟩

theorem mem_dedupScan :
    ∀ (l : List Article) (seen : List String) (a : Article),
      a ∈ dedupScan seen l → a ∈ l := by
  intro l
  induction l with
  | nil => intro seen a h; simp [dedupScan] at h
  | cons b l ih =>
      intro seen a h
      unfold dedupScan at h
      by_cases hb : seen.contains (dedupKeyStr b) = true
      · rw [if_pos hb] at h
        exact List.mem_cons_of_mem _ (ih seen a h)
      · rw [if_neg hb] at h
        rcases List.mem_cons.mp h with rfl | h2
        · exact List.mem_cons_self _ _
        · exact List.mem_cons_of_mem _ (ih _ a h2)

/-- C8 (counterexample): the GET list route ingests records mapped with the
request category, which defaults to the wildcard and is validated only
against the full closed set, so a store holding an article whose category is
the wildcard tag is reachable. -/
theorem wildcard_category_reachable :
    Reachable wildcardStore ∧
    ∃ a ∈ wildcardStore.articles, a.category = NewsCategory.all := by
  constructor
  · exact Reachable.ingest Reachable.empty NewsCategory.all recSample
  · decide

/-- C8 (amended): stored categories always come from the closed set (by
typing of the embedded operations), and as long as every ingestion uses a
non-wildcard category — as the refresh-all route does — no stored article
ever carries the wildcard tag.  The GET list route breaks the original
claim, as `wildcard_category_reachable` shows. -/
theorem stored_category_not_wildcard (s : Store) (h : ReachableNW s) :
    ∀ a ∈ s.articles, a.category ≠ NewsCategory.all := by
  induction h with
  | empty => intro a ha; simp [emptyStore] at ha
  | ingest h category record hcat ih =>
      intro a ha
      rcases mem_createArticle _ _ a ha with h1 | h2
      · exact ih a h1
      · rw [h2]
        exact hcat
  | views h id ih =>
      intro a ha
      unfold updateArticleViews at ha
      split at ha
      · obtain ⟨c, hc, hcat⟩ := mem_updateFirst id _ a ha
        rw [hcat]
        exact ih c hc
      · exact ih a ha
  | evict h now ih =>
      intro a ha
      unfold clearOldArticles at ha
      simp only [List.mem_filter] at ha
      exact ih a ha.1
  | compact h ih =>
      intro a ha
      unfold removeDuplicates at ha
      exact ih a (mem_dedupScan _ _ a ha)

/-- C8 (amended) witness: the store built by one non-wildcard ingestion
satisfies the invariant at its single stored article. -/
theorem stored_category_not_wildcard_witness :
    ((createArticle emptyStore (mapNewsAPIToSchema recSample NewsCategory.ai)).1).category ≠
      NewsCategory.all :=
  stored_category_not_wildcard nwStore
    (ReachableNW.ingest ReachableNW.empty NewsCategory.ai recSample (by decide))
    (createArticle emptyStore (mapNewsAPIToSchema recSample NewsCategory.ai)).1
    (by decide)

end TechNews
